import Mathlib

/-!
Verification of the marshmallow schema engine (serialization /
deserialization with per-field validation and structured error reporting).

The package's public surface (`src/marshmallow/__init__.py`) only re-exports
the engine; the engine itself (Schema, SchemaOpts, Field, Marshaller,
Unmarshaller, Result and error types) is modelled here from the
specification's component design (spec sections 3, 4 and 7).
-/

namespace Marshmallow

/-- Modelled from the spec: primitive-typed values, "the kind exchanged over
wire protocols" — strings, numbers, booleans, null, mappings and lists.
This is the representation produced by marshalling (dump) and consumed by
unmarshalling (load). -/
inductive Prim where
  | str (s : String)
  | num (n : Int)
  | boolean (b : Bool)
  | nullv
  | map (entries : List (String × Prim))
  | list (xs : List Prim)
deriving Repr

/-- Modelled from the spec: richly-typed in-memory native values — strings,
numbers, booleans, datetimes (an abstract instant, here a natural count),
null, objects (attribute mappings) and lists. -/
inductive Native where
  | str (s : String)
  | num (n : Int)
  | boolean (b : Bool)
  | date (d : Nat)
  | nullv
  | obj (entries : List (String × Native))
  | list (xs : List Native)
deriving Repr

/-- Modelled from the spec: an ErrorTree is a mapping from field name to
either a list of message strings (leaf field), a nested ErrorTree
(nested-schema field), or, for many/list contexts, a mapping from index to
ErrorTree. -/
inductive ErrTree where
  | msgs (l : List String)
  | tree (entries : List (String × ErrTree))
  | indexed (entries : List (Nat × ErrTree))
deriving Repr

/-- The empty error tree: no field has failed. -/
def emptyErr : ErrTree := .tree []

/-- Whether an error tree carries no failures at its top level. -/
def ErrTree.isEmpty : ErrTree → Bool
  | .msgs l => l.isEmpty
  | .tree l => l.isEmpty
  | .indexed l => l.isEmpty

mutual
/-- Modelled from the spec: a Field's type tag, "one of a closed set:
string, number, boolean, datetime, nested-schema, list-of(Field)".
A nested-schema field stores a schema name, resolved lazily through the
Schema Registry (spec section 9) to allow self-reference. -/
inductive FieldType where
  | str
  | num
  | boolean
  | datetime
  | nested (schemaName : String)
  | listOf (inner : Field)

/-- Modelled from the spec: a Field descriptor — optional source/target
attribute alias, type tag, `required` flag, `allow_none` flag, a `default`
value substituted into dump output when the source attribute is absent, a
`missing` value substituted into load output when the input key is absent,
and an ordered sequence of validator functions (value → ok | failure
reason). -/
inductive Field where
  | mk (attr : Option String) (ftype : FieldType) (required : Bool)
      (allowNone : Bool) (dflt : Option Prim) (missing : Option Native)
      (validators : List (Native → Option String))
end

def Field.attr : Field → Option String
  | .mk a _ _ _ _ _ _ => a

def Field.ftype : Field → FieldType
  | .mk _ t _ _ _ _ _ => t

def Field.required : Field → Bool
  | .mk _ _ r _ _ _ _ => r

def Field.allowNone : Field → Bool
  | .mk _ _ _ n _ _ _ => n

def Field.dflt : Field → Option Prim
  | .mk _ _ _ _ d _ _ => d

def Field.missing : Field → Option Native
  | .mk _ _ _ _ _ m _ => m

def Field.validators : Field → List (Native → Option String)
  | .mk _ _ _ _ _ _ v => v

/-- A field's alias: the declared name unless an explicit source/target
attribute alias is configured (spec: "alias defaults to declared name"). -/
def aliasOf (name : String) (f : Field) : String :=
  (Field.attr f).getD name

/-- Modelled from the spec: the unknown-field policy (ignore | raise |
include) applied by the Unmarshaller to input keys with no matching field. -/
inductive UnknownPolicy where
  | ignore
  | raiseErr
  | includeKeys
deriving Repr, DecidableEq

/-- Modelled from the spec: SchemaOpts — include-list (`only`), exclude-list,
strict flag (default off), ordered flag, unknown-field policy. -/
structure SchemaOpts where
  only : Option (List String) := none
  exclude : List String := []
  strict : Bool := false
  ordered : Bool := true
  unknown : UnknownPolicy := .ignore

/-- Modelled from the spec: a Schema binds one Field Registry (an ordered,
named collection of Fields) and one SchemaOpts. -/
structure Schema where
  fields : List (String × Field)
  opts : SchemaOpts := {}

/-- The process-wide Schema Registry: a mapping from schema name to schema
definition, used to resolve nested/self-referential schema references. -/
abbrev Registry := List (String × Schema)

/-- Association-list lookup by string key (first match wins). -/
def findEntry : List (String × α) → String → Option α
  | [], _ => none
  | (k, v) :: rest, key => if k == key then some v else findEntry rest key

/-- Look a schema up in the registry by name. -/
def findSchema (reg : Registry) (name : String) : Option Schema :=
  findEntry reg name

/-- The effective field list of a schema: the declared registry filtered by
the `only` include-list, the `exclude` list, and a call-scoped extra
exclude list layered on top without mutating the schema. -/
def effFields (s : Schema) (xex : List String) : List (String × Field) :=
  let base : List (String × Field) :=
    match s.opts.only with
    | some incl => s.fields.filter (fun kv => incl.contains kv.1)
    | none => s.fields
  base.filter (fun kv => !(s.opts.exclude.contains kv.1 || xex.contains kv.1))

/-- Whether some effective field matches an input key (match is by field
alias). -/
def hasField (flds : List (String × Field)) (key : String) : Bool :=
  flds.any (fun kv => aliasOf kv.1 kv.2 == key)

/-- Modelled from the spec: the partial-load argument — either a boolean for
all fields or an explicit set of field names exempted from required-checks. -/
inductive Exempt where
  | noneEx
  | allEx
  | names (l : List String)

/-- Whether a field name is exempted from the required-check. -/
def inExempt : Exempt → String → Bool
  | .noneEx, _ => false
  | .allEx, _ => true
  | .names l, n => l.contains n

/-- Run a field's validators in registration order, short-circuiting at the
first failure; returns the first failure message, if any. -/
def runValidators : List (Native → Option String) → Native → Option String
  | [], _ => none
  | vd :: rest, v =>
    match vd v with
    | some msg => some msg
    | none => runValidators rest v

/-- After successful type coercion on load, run the field's validators;
on the first failure the (single) failure message becomes the field's
error and no value is produced. -/
def vdone (f : Field) (v : Native) : Option Native × ErrTree :=
  match runValidators (Field.validators f) v with
  | none => (some v, emptyErr)
  | some msg => (none, .msgs [msg])

/-- The decimal digit character for a digit value below ten. -/
def digitChar (d : Nat) : Char := Char.ofNat (48 + d)

/-- The digit value of a decimal digit character. -/
def charDigit (c : Char) : Option Nat :=
  if 48 ≤ c.toNat ∧ c.toNat ≤ 57 then some (c.toNat - 48) else none

/-- Modelled from the spec: the configured date format — datetimes are
serialized to their decimal string representation. -/
def fmtDate (d : Nat) : String :=
  if d = 0 then "0" else ⟨((Nat.digits 10 d).map digitChar).reverse⟩

/-- One step of decimal parsing: shift the accumulator and add the digit,
failing on a non-digit character. -/
def parseStep (acc : Option Nat) (c : Char) : Option Nat :=
  match acc, charDigit c with
  | some n, some d => some (10 * n + d)
  | _, _ => none

/-- Parse a date string back to the instant it denotes: all characters must
be decimal digits and the string must be non-empty. -/
def parseDate (s : String) : Option Nat :=
  match s.data with
  | [] => none
  | cs => cs.foldl parseStep (some 0)

mutual
/-- Embed a primitive value into the native domain unchanged; used by the
`include` unknown-field policy to pass unknown input keys through untouched. -/
def primToNative : Prim → Native
  | .str s => .str s
  | .num n => .num n
  | .boolean b => .boolean b
  | .nullv => .nullv
  | .map entries => .obj (primToNativeMap entries)
  | .list xs => .list (primToNativeList xs)

/-- Elementwise `primToNative` on map entries. -/
def primToNativeMap : List (String × Prim) → List (String × Native)
  | [] => []
  | (k, v) :: rest => (k, primToNative v) :: primToNativeMap rest

/-- Elementwise `primToNative` on list elements. -/
def primToNativeList : List Prim → List Native
  | [] => []
  | v :: rest => primToNative v :: primToNativeList rest
end

/-- Deserializing a null input value: allowed (yielding native null) exactly
when the field's `allow_none` flag is set. -/
def nullLoad (f : Field) : Option Native × ErrTree :=
  if Field.allowNone f then (some .nullv, emptyErr)
  else (none, .msgs ["null not allowed"])

mutual
/-- Modelled from the spec: `Field.deserialize` — coerce the input value to
the field's native type, then run the validators in order short-circuiting
at the first failure; nested-schema fields delegate to the referenced
schema's Unmarshaller (resolved through the Schema Registry) and splice the
child result in; list fields apply the inner field element-wise with an
index-keyed error tree. Returns the produced native value (if any) together
with this field's error tree (empty on success). -/
def dserField (reg : Registry) (f : Field) (v : Prim) :
    Option Native × ErrTree :=
  match Field.ftype f, v with
  | _, .nullv => nullLoad f
  | .str, .str s => vdone f (.str s)
  | .num, .num n => vdone f (.num n)
  | .boolean, .boolean b => vdone f (.boolean b)
  | .datetime, .str s =>
    match parseDate s with
    | some d => vdone f (.date d)
    | none => (none, .msgs ["invalid"])
  | .nested sn, .map entries =>
    match findSchema reg sn with
    | some child =>
      if ErrTree.isEmpty (loadRaw reg child [] .noneEx entries).2 then
        vdone f (.obj (loadRaw reg child [] .noneEx entries).1)
      else
        (some (.obj (loadRaw reg child [] .noneEx entries).1),
         (loadRaw reg child [] .noneEx entries).2)
    | none => (none, .msgs ["unregistered schema"])
  | .listOf inner, .list xs =>
    if (dserList reg inner xs 0).2.isEmpty then
      vdone f (.list (dserList reg inner xs 0).1)
    else
      (some (.list (dserList reg inner xs 0).1),
       .indexed (dserList reg inner xs 0).2)
  | _, _ => (none, .msgs ["invalid"])
termination_by (sizeOf v, 0)
decreasing_by
  all_goals simp_wf
  all_goals exact Prod.Lex.left _ _ (by omega)

/-- Element-wise deserialization for a list field, numbering elements from
`i`: produces the deserialized elements together with an index-keyed list
of the error trees of the failing elements. -/
def dserList (reg : Registry) (f : Field) (xs : List Prim) (i : Nat) :
    List Native × List (Nat × ErrTree) :=
  match xs with
  | [] => ([], [])
  | x :: rest =>
    ((match (dserField reg f x).1 with
      | some nv => nv :: (dserList reg f rest (i + 1)).1
      | none => (dserList reg f rest (i + 1)).1),
     if ErrTree.isEmpty (dserField reg f x).2 then (dserList reg f rest (i + 1)).2
     else (i, (dserField reg f x).2) :: (dserList reg f rest (i + 1)).2)
termination_by (sizeOf xs, 1)
decreasing_by
  all_goals simp_wf
  all_goals exact Prod.Lex.left _ _ (by omega)

/-- Modelled from the spec: the Unmarshaller's per-field walk. For each
field in registry order: look the field's alias up in the input; if absent
and the field is exempted by the partial set, skip the required-check and
omit it from the output; otherwise substitute the `missing` value, or
signal a "required" failure when the field is required with no `missing`
configured. When present, deserialize; failures are recorded under the
field's name, successes under the field's target attribute name. -/
def umFields (reg : Registry) (flds : List (String × Field)) (ex : Exempt)
    (input : List (String × Prim)) :
    List (String × Native) × List (String × ErrTree) :=
  match flds with
  | [] => ([], [])
  | (name, f) :: rest =>
    match h : findEntry input (aliasOf name f) with
    | some v =>
      ((match (dserField reg f v).1 with
        | some nv => (aliasOf name f, nv) :: (umFields reg rest ex input).1
        | none => (umFields reg rest ex input).1),
       if ErrTree.isEmpty (dserField reg f v).2 then (umFields reg rest ex input).2
       else (name, (dserField reg f v).2) :: (umFields reg rest ex input).2)
    | none =>
      if inExempt ex name then umFields reg rest ex input
      else
        match Field.missing f with
        | some m =>
          ((aliasOf name f, m) :: (umFields reg rest ex input).1,
           (umFields reg rest ex input).2)
        | none =>
          if Field.required f then
            ((umFields reg rest ex input).1,
             (name, .msgs ["required"]) :: (umFields reg rest ex input).2)
          else umFields reg rest ex input
termination_by (sizeOf input, flds.length)
decreasing_by
  all_goals simp_wf
  all_goals first
    | exact Prod.Lex.left _ _ (by
        have hsz : ∀ {α : Type} [SizeOf α] (l : List (String × α))
            (k : String) (v : α),
            findEntry l k = some v → sizeOf v < sizeOf l := by
          intro α inst l k v hfe
          induction l with
          | nil => simp [findEntry] at hfe
          | cons hd tl ih =>
            obtain ⟨k1, v1⟩ := hd
            by_cases hk : k1 == k
            · simp [findEntry, hk] at hfe
              subst hfe
              simp
              omega
            · simp [findEntry, hk] at hfe
              have := ih hfe
              simp
              omega
        have := hsz _ _ _ h
        omega)
    | exact Prod.Lex.right _ (by omega)

/-- Modelled from the spec: the Unmarshaller. Walks the effective fields
against the input mapping, then applies the unknown-field policy to input
keys with no matching field: `ignore` drops them, `raise` contributes a
top-level error per unknown key, `include` passes them through untouched
into the output. Returns the built native mapping and the error tree. -/
def loadRaw (reg : Registry) (s : Schema) (xex : List String) (ex : Exempt)
    (input : List (String × Prim)) :
    List (String × Native) × ErrTree :=
  match s.opts.unknown with
  | .ignore =>
    ((umFields reg (effFields s xex) ex input).1,
     .tree (umFields reg (effFields s xex) ex input).2)
  | .raiseErr =>
    ((umFields reg (effFields s xex) ex input).1,
     .tree ((umFields reg (effFields s xex) ex input).2 ++
       (input.filter (fun kv => !hasField (effFields s xex) kv.1)).map
         (fun kv => (kv.1, ErrTree.msgs ["unknown field"]))))
  | .includeKeys =>
    ((umFields reg (effFields s xex) ex input).1 ++
       (input.filter (fun kv => !hasField (effFields s xex) kv.1)).map
         (fun kv => (kv.1, primToNative kv.2)),
     .tree (umFields reg (effFields s xex) ex input).2)
termination_by (sizeOf input, s.fields.length + 1)
decreasing_by
  all_goals
    have hle : (effFields s xex).length ≤ s.fields.length := by
      unfold effFields
      cases s.opts.only with
      | none => exact List.length_filter_le _ _
      | some incl =>
        exact le_trans (List.length_filter_le _ _) (List.length_filter_le _ _)
    exact Prod.Lex.right _ (by omega)
end

/-- Serializing a null source value: included as primitive null when
`allow_none` is set, otherwise the field is omitted from output with no
error (spec section 4.1). -/
def nullDump (f : Field) : Option Prim × ErrTree :=
  if Field.allowNone f then (some .nullv, emptyErr) else (none, emptyErr)

mutual
/-- Modelled from the spec: `Field.serialize` — applies type coercion
(datetime to string using the configured format); nested-schema fields
delegate to the referenced schema's Marshaller; list fields serialize
element-wise with an index-keyed error tree; a value not representable in
the field's declared type is a serialize-time failure. -/
def serField (reg : Registry) (f : Field) (v : Native) :
    Option Prim × ErrTree :=
  match Field.ftype f, v with
  | _, .nullv => nullDump f
  | .str, .str s => (some (.str s), emptyErr)
  | .num, .num n => (some (.num n), emptyErr)
  | .boolean, .boolean b => (some (.boolean b), emptyErr)
  | .datetime, .date d => (some (.str (fmtDate d)), emptyErr)
  | .nested sn, .obj entries =>
    match findSchema reg sn with
    | some child =>
      (some (.map (dumpRaw reg child [] entries).1),
       (dumpRaw reg child [] entries).2)
    | none => (none, .msgs ["unregistered schema"])
  | .listOf inner, .list xs =>
    if (serList reg inner xs 0).2.isEmpty then
      (some (.list (serList reg inner xs 0).1), emptyErr)
    else
      (some (.list (serList reg inner xs 0).1), .indexed (serList reg inner xs 0).2)
  | _, _ => (none, .msgs ["invalid"])
termination_by (sizeOf v, 0)
decreasing_by
  all_goals simp_wf
  all_goals exact Prod.Lex.left _ _ (by omega)

/-- Element-wise serialization for a list field, numbering elements from
`i`. -/
def serList (reg : Registry) (f : Field) (xs : List Native) (i : Nat) :
    List Prim × List (Nat × ErrTree) :=
  match xs with
  | [] => ([], [])
  | x :: rest =>
    ((match (serField reg f x).1 with
      | some p => p :: (serList reg f rest (i + 1)).1
      | none => (serList reg f rest (i + 1)).1),
     if ErrTree.isEmpty (serField reg f x).2 then (serList reg f rest (i + 1)).2
     else (i, (serField reg f x).2) :: (serList reg f rest (i + 1)).2)
termination_by (sizeOf xs, 1)
decreasing_by
  all_goals simp_wf
  all_goals exact Prod.Lex.left _ _ (by omega)

/-- Modelled from the spec: the Marshaller's per-field walk. For each field
in registry order: read the source attribute by alias; if absent,
substitute the `default` (omitting the field when none is configured);
serialize-time failures are collected under the field's name and never
abort the remaining fields; successes are recorded under the field's
declared name. Unknown source attributes are never surfaced. -/
def mFields (reg : Registry) (flds : List (String × Field))
    (obj : List (String × Native)) :
    List (String × Prim) × List (String × ErrTree) :=
  match flds with
  | [] => ([], [])
  | (name, f) :: rest =>
    match h : findEntry obj (aliasOf name f) with
    | some v =>
      ((match (serField reg f v).1 with
        | some p => (name, p) :: (mFields reg rest obj).1
        | none => (mFields reg rest obj).1),
       if ErrTree.isEmpty (serField reg f v).2 then (mFields reg rest obj).2
       else (name, (serField reg f v).2) :: (mFields reg rest obj).2)
    | none =>
      match Field.dflt f with
      | some p => ((name, p) :: (mFields reg rest obj).1, (mFields reg rest obj).2)
      | none => mFields reg rest obj
termination_by (sizeOf obj, flds.length)
decreasing_by
  all_goals simp_wf
  all_goals first
    | exact Prod.Lex.left _ _ (by
        have hsz : ∀ {α : Type} [SizeOf α] (l : List (String × α))
            (k : String) (v : α),
            findEntry l k = some v → sizeOf v < sizeOf l := by
          intro α inst l k v hfe
          induction l with
          | nil => simp [findEntry] at hfe
          | cons hd tl ih =>
            obtain ⟨k1, v1⟩ := hd
            by_cases hk : k1 == k
            · simp [findEntry, hk] at hfe
              subst hfe
              simp
              omega
            · simp [findEntry, hk] at hfe
              have := ih hfe
              simp
              omega
        have := hsz _ _ _ h
        omega)
    | exact Prod.Lex.right _ (by omega)

/-- Modelled from the spec: the Marshaller. Walks the effective fields
(the schema's field registry filtered by options and a call-scoped extra
exclude list) against a source object, producing the primitive mapping and
the error tree. -/
def dumpRaw (reg : Registry) (s : Schema) (xex : List String)
    (obj : List (String × Native)) :
    List (String × Prim) × ErrTree :=
  ((mFields reg (effFields s xex) obj).1,
   .tree (mFields reg (effFields s xex) obj).2)
termination_by (sizeOf obj, s.fields.length + 1)
decreasing_by
  all_goals
    have hle : (effFields s xex).length ≤ s.fields.length := by
      unfold effFields
      cases s.opts.only with
      | none => exact List.length_filter_le _ _
      | some incl =>
        exact le_trans (List.length_filter_le _ _) (List.length_filter_le _ _)
    exact Prod.Lex.right _ (by omega)
end

/-- Modelled from the spec: the Marshaller's many=True traversal, numbering
elements from `i` — each object of the sequence is dumped independently
and a failing element contributes an entry at its index in the index-keyed
error tree. -/
def mMany (reg : Registry) (s : Schema) (xex : List String)
    (objs : List (List (String × Native))) (i : Nat) :
    List (List (String × Prim)) × List (Nat × ErrTree) :=
  match objs with
  | [] => ([], [])
  | o :: rest =>
    ((dumpRaw reg s xex o).1 :: (mMany reg s xex rest (i + 1)).1,
     if ErrTree.isEmpty (dumpRaw reg s xex o).2 then (mMany reg s xex rest (i + 1)).2
     else (i, (dumpRaw reg s xex o).2) :: (mMany reg s xex rest (i + 1)).2)

/-- Modelled from the spec: the Marshaller's Result — an immutable pair of
primitive data and error tree (`MarshalResult` in the package's exports). -/
structure MarshalResult where
  data : Prim
  errors : ErrTree

/-- Modelled from the spec: the Unmarshaller's Result — an immutable pair of
native data and error tree (`UnmarshalResult` in the package's exports). -/
structure UnmarshalResult where
  data : Native
  errors : ErrTree

/-- Modelled from the spec: the error raised by the Marshaller in strict
mode, carrying the full error tree and the partially-built data. -/
structure MarshallingError where
  messages : ErrTree
  data : Prim

/-- Modelled from the spec: the error raised by the Unmarshaller in strict
mode, carrying the full error tree and the partially-built data. -/
structure UnmarshallingError where
  messages : ErrTree
  data : Native

/-- Modelled from the spec: `Schema.load` — delegate to the Unmarshaller;
if `Options.strict` and the accumulated error tree is non-empty, an
UnmarshallingError carrying the full error tree and the partially-built
data is raised instead of returning a Result. -/
def Schema.load (reg : Registry) (s : Schema) (ex : Exempt)
    (input : List (String × Prim)) :
    Except UnmarshallingError UnmarshalResult :=
  let r := loadRaw reg s [] ex input
  if s.opts.strict && !(ErrTree.isEmpty r.2) then .error ⟨r.2, .obj r.1⟩
  else .ok ⟨.obj r.1, r.2⟩

/-- Modelled from the spec: `Schema.dump` — delegate to the Marshaller; the
symmetric MarshallingError is raised under the same strict condition. -/
def Schema.dump (reg : Registry) (s : Schema)
    (obj : List (String × Native)) :
    Except MarshallingError MarshalResult :=
  let r := dumpRaw reg s [] obj
  if s.opts.strict && !(ErrTree.isEmpty r.2) then .error ⟨r.2, .map r.1⟩
  else .ok ⟨.map r.1, r.2⟩

/-- Modelled from the spec: `Schema.dump` with many=True — the data is the
ordered sequence of the per-element dumps, the error tree is index-keyed. -/
def Schema.dumpMany (reg : Registry) (s : Schema)
    (objs : List (List (String × Native))) :
    Except MarshallingError MarshalResult :=
  let r := mMany reg s [] objs 0
  let e : ErrTree := .indexed r.2
  if s.opts.strict && !(ErrTree.isEmpty e) then
    .error ⟨e, .list (r.1.map Prim.map)⟩
  else .ok ⟨.list (r.1.map Prim.map), e⟩

/-- A call made against a schema instance, with its call-scoped overrides
(a dynamic extra exclude list, a partial set). -/
inductive Call where
  | dumpC (xex : List String) (obj : List (String × Native))
  | loadC (xex : List String) (ex : Exempt) (input : List (String × Prim))

/-- The outcome of one call. -/
inductive CallResult where
  | dumped (r : List (String × Prim) × ErrTree)
  | loaded (r : List (String × Native) × ErrTree)

/-- State-passing embedding of one dump/load call against a schema
instance: the call returns its result together with the schema state after
the call. The engine modelled from the spec applies call-scoped overrides
without mutating the schema's registry or options. -/
def runCall (reg : Registry) (s : Schema) : Call → CallResult × Schema
  | .dumpC xex obj => (.dumped (dumpRaw reg s xex obj), s)
  | .loadC xex ex input => (.loaded (loadRaw reg s xex ex input), s)

/-- Run a sequence of calls, threading the schema state: each call runs on
the state left by the previous one. -/
def runCalls (reg : Registry) (s : Schema) : List Call → List CallResult × Schema
  | [] => ([], s)
  | c :: rest =>
    let r := runCall reg s c
    let tl := runCalls reg r.2 rest
    (r.1 :: tl.1, tl.2)

mutual
/-- A native value survives its field's declared coercion: it matches the
field's declared type (null only where `allow_none` is set), the field's
validators accept it, and nested objects / list elements are recursively
well-typed against the referenced schemas. This is the round-trip
property's "no optional-field omissions / declared coercions" side
condition. -/
def wtValue (reg : Registry) (f : Field) (v : Native) : Bool :=
  match Field.ftype f, v with
  | _, .nullv => Field.allowNone f
  | .str, .str s => (runValidators (Field.validators f) (.str s)).isNone
  | .num, .num n => (runValidators (Field.validators f) (.num n)).isNone
  | .boolean, .boolean b =>
    (runValidators (Field.validators f) (.boolean b)).isNone
  | .datetime, .date d =>
    (runValidators (Field.validators f) (.date d)).isNone
  | .nested sn, .obj entries =>
    (match findSchema reg sn with
      | some child => wtObj reg (effFields child []) entries
      | none => false)
      && (runValidators (Field.validators f) (.obj entries)).isNone
  | .listOf inner, .list xs =>
    wtList reg inner xs
      && (runValidators (Field.validators f) (.list xs)).isNone
  | _, _ => false
termination_by (sizeOf v, 0)
decreasing_by
  all_goals simp_wf
  · exact Prod.Lex.left _ _ (by omega)
  · exact Prod.Lex.left _ _ (by omega)

/-- Elementwise well-typedness of list-field elements. -/
def wtList (reg : Registry) (f : Field) (xs : List Native) : Bool :=
  match xs with
  | [] => true
  | x :: rest => wtValue reg f x && wtList reg f rest
termination_by (sizeOf xs, 1)
decreasing_by
  all_goals simp_wf
  · exact Prod.Lex.left _ _ (by omega)
  · exact Prod.Lex.left _ _ (by omega)

/-- A native object is in canonical well-typed form for a field list: its
entries are exactly the fields, in registry order, each keyed by the
field's name (with the alias left at its default, so dump's declared-name
output keys and load's alias lookups coincide), names not shadowed later
in the registry, and each value well-typed for its field. -/
def wtObj (reg : Registry) (flds : List (String × Field))
    (obj : List (String × Native)) : Bool :=
  match flds, obj with
  | [], [] => true
  | [], _ :: _ => false
  | _ :: _, [] => false
  | (name, f) :: fr, (k, v) :: orest =>
    (aliasOf name f == name) && (k == name) && !(hasField fr name)
      && wtValue reg f v && wtObj reg fr orest
termination_by (sizeOf obj, 2)
decreasing_by
  all_goals simp_wf
  · exact Prod.Lex.left _ _ (by omega)
  · exact Prod.Lex.left _ _ (by omega)
end

/-- The name-keyed entries at the top level of an error tree. -/
def ErrTree.entries : ErrTree → List (String × ErrTree)
  | .tree l => l
  | _ => []

/-- The package's public export list, embedded from
`src/marshmallow/__init__.py` (`__all__`). -/
def dunderAll : List String :=
  ["Schema", "Serializer", "SchemaOpts", "pprint",
   "MarshalResult", "UnmarshalResult", "MarshallingError", "UnmarshallingError"]

/-- A plain required number field used by the concrete examples. -/
def numReqF : Field := .mk none .num true false none none []

/-- A self-referential schema: a node holds a number and an optional nested
node, resolved through the Schema Registry by name. -/
def nodeSchema : Schema :=
  { fields := [("v", numReqF),
               ("next", Field.mk none (.nested "node") false false none none [])] }

/-- The registry entry making `nodeSchema` self-referential. -/
def nodeReg : Registry := [("node", nodeSchema)]

/-- A one-required-field schema in strict mode. -/
def strictS : Schema :=
  { fields := [("x", numReqF)], opts := { strict := true } }

/-- The same schema with strict mode off. -/
def laxS : Schema := { fields := [("x", numReqF)] }

/-- A plain required string field used by the concrete examples. -/
def strReqF : Field := .mk none .str true false none none []

/-- The partial-load example schema: required `name` and `age`. -/
def partialS : Schema := { fields := [("name", strReqF), ("age", numReqF)] }

/-- The unknown-policy example schema: one number field `x`. -/
def unkS (pol : UnknownPolicy) : Schema :=
  { fields := [("x", numReqF)], opts := { unknown := pol } }

/-- The nested-error example: a child schema requiring `zip`, registered as
"addr". -/
def zipS : Schema := { fields := [("zip", strReqF)] }

/-- Registry carrying the `zipS` child schema under the name "addr". -/
def addrReg : Registry := [("addr", zipS)]

/-- Parent schema with a nested `address` field referencing "addr". -/
def addrS : Schema :=
  { fields := [("address", Field.mk none (.nested "addr") true false none none [])] }

/-- A validator accepting every value. -/
def vOk : Native → Option String := fun _ => none

/-- A validator rejecting every value with message "bad". -/
def vBad : Native → Option String := fun _ => some "bad"

/-- A validator rejecting every value with message "later". -/
def vLater : Native → Option String := fun _ => some "later"

/-- The round-trip demo child schema: a required string `zip`. -/
def demoChild : Schema := { fields := [("zip", strReqF)] }

/-- The round-trip demo registry. -/
def demoReg : Registry := [("home", demoChild)]

/-- A validator accepting exactly non-empty strings. -/
def vNonEmpty : Native → Option String := fun v =>
  match v with
  | .str s => if s == "" then some "empty" else none
  | _ => none

/-- The round-trip demo schema: string (with a validator), number,
datetime, nested and list-of-number fields. -/
def demoS : Schema :=
  { fields :=
      [("name", Field.mk none .str true false none none [vNonEmpty]),
       ("age", numReqF),
       ("born", Field.mk none .datetime true false none none []),
       ("address", Field.mk none (.nested "home") true false none none []),
       ("tags", Field.mk none (.listOf numReqF) false false none none [])] }

/-- The round-trip demo object, canonical for `demoS`. -/
def demoObj : List (String × Native) :=
  [("name", .str "a"), ("age", .num 30), ("born", .date 12),
   ("address", .obj [("zip", .str "z")]),
   ("tags", .list [.num 1, .num 2])]

theorem findEntry_cons_ne (l : List (String × α)) {k key : String} (v : α)
    (h : (k == key) = false) : findEntry ((k, v) :: l) key = findEntry l key := by
  simp [findEntry, h]

theorem findEntry_mem {l : List (String × α)} {key : String} {v : α}
    (h : findEntry l key = some v) : (key, v) ∈ l := by
  induction l with
  | nil => simp [findEntry] at h
  | cons hd tl ih =>
    obtain ⟨k', v'⟩ := hd
    by_cases hk : k' == key
    · simp [findEntry, hk] at h
      subst h
      have : k' = key := by simpa using hk
      subst this
      exact List.mem_cons_self _ _
    · rw [findEntry_cons_ne _ _ (by simpa using hk)] at h
      exact List.mem_cons_of_mem _ (ih h)

theorem findEntry_eq_none {l : List (String × α)} {key : String}
    (h : ∀ v : α, (key, v) ∉ l) : findEntry l key = none := by
  induction l with
  | nil => rfl
  | cons hd tl ih =>
    obtain ⟨k', v'⟩ := hd
    by_cases hk : k' == key
    · have : k' = key := by simpa using hk
      subst this
      exact absurd (List.mem_cons_self _ _) (h v')
    · rw [findEntry_cons_ne _ _ (by simpa using hk)]
      exact ih fun v hv => h v (List.mem_cons_of_mem _ hv)

theorem charDigit_digitChar {x : Nat} (h : x < 10) :
    charDigit (digitChar x) = some x := by
  interval_cases x <;> decide

theorem foldl_parseStep_digits (l : List Nat) (a : Nat)
    (hl : ∀ x ∈ l, x < 10) :
    List.foldl parseStep (some a) ((l.map digitChar).reverse)
      = some (Nat.ofDigits 10 l + a * 10 ^ l.length) := by
  rw [List.foldl_reverse]
  induction l generalizing a with
  | nil => simp [Nat.ofDigits_nil]
  | cons d rest ih =>
    have hd : d < 10 := hl d (List.mem_cons_self _ _)
    have hrest : ∀ x ∈ rest, x < 10 := fun x hx =>
      hl x (List.mem_cons_of_mem _ hx)
    simp only [List.map_cons, List.foldr_cons]
    rw [ih a hrest]
    simp [parseStep, charDigit_digitChar hd, Nat.ofDigits_cons]
    ring

theorem parseDate_fmtDate (d : Nat) : parseDate (fmtDate d) = some d := by
  by_cases h0 : d = 0
  · subst h0
    decide
  · have hd : Nat.digits 10 d ≠ [] := Nat.digits_ne_nil_iff_ne_zero.mpr h0
    have hlt : ∀ x ∈ Nat.digits 10 d, x < 10 := fun x hx =>
      Nat.digits_lt_base (by norm_num) hx
    have hne : ((Nat.digits 10 d).map digitChar).reverse ≠ [] := by
      simp [hd]
    have key := foldl_parseStep_digits (Nat.digits 10 d) 0 hlt
    rw [Nat.ofDigits_digits] at key
    obtain ⟨c, cs, hcs⟩ := List.exists_cons_of_ne_nil hne
    rw [fmtDate, if_neg h0]
    show parseDate ⟨((Nat.digits 10 d).map digitChar).reverse⟩ = some d
    rw [parseDate]
    simp only [hcs] at key ⊢
    simpa using key

theorem runValidators_append {pre rest : List (Native → Option String)}
    {v : Native} (h : ∀ u ∈ pre, u v = none) :
    runValidators (pre ++ rest) v = runValidators rest v := by
  induction pre with
  | nil => rfl
  | cons u pre ih =>
    have hu : u v = none := h u (List.mem_cons_self _ _)
    rw [List.cons_append, runValidators, hu]
    exact ih fun u' hu' => h u' (List.mem_cons_of_mem _ hu')

theorem runValidators_first_failure (pre post : List (Native → Option String))
    (vd : Native → Option String) {v : Native} {msg : String}
    (hpre : ∀ u ∈ pre, u v = none) (hvd : vd v = some msg) :
    runValidators (pre ++ vd :: post) v = some msg := by
  rw [runValidators_append hpre, runValidators, hvd]

theorem umFields_required_mem (reg : Registry) {flds : List (String × Field)}
    {ex : Exempt} (input : List (String × Prim)) {name : String} {f : Field}
    (hmem : (name, f) ∈ flds)
    (habs : findEntry input (aliasOf name f) = none)
    (hex : inExempt ex name = false)
    (hms : Field.missing f = none)
    (hreq : Field.required f = true) :
    (name, ErrTree.msgs ["required"]) ∈ (umFields reg flds ex input).2 := by
  induction flds with
  | nil => simp at hmem
  | cons hd rest ih =>
    obtain ⟨n0, f0⟩ := hd
    rcases List.mem_cons.mp hmem with heq | htl
    · injection heq with h1 h2
      subst h1
      subst h2
      rw [umFields]
      split
      · simp_all
      · simp_all
    · have hmemr := ih htl
      rw [umFields]
      split
      all_goals repeat' split
      all_goals simp_all

theorem umFields_err_mem {reg : Registry} {flds : List (String × Field)}
    (ex : Exempt) {input : List (String × Prim)} {name : String} {f : Field}
    {v : Prim}
    (hmem : (name, f) ∈ flds)
    (hfind : findEntry input (aliasOf name f) = some v)
    (hne : ErrTree.isEmpty (dserField reg f v).2 = false) :
    (name, (dserField reg f v).2) ∈ (umFields reg flds ex input).2 := by
  induction flds with
  | nil => simp at hmem
  | cons hd rest ih =>
    obtain ⟨n0, f0⟩ := hd
    rcases List.mem_cons.mp hmem with heq | htl
    · injection heq with h1 h2
      subst h1
      subst h2
      rw [umFields]
      split
      · simp_all
      · simp_all
    · have hmemr := ih htl
      rw [umFields]
      split
      all_goals repeat' split
      all_goals simp_all

theorem hasField_cons {n : String} {f : Field} {rest : List (String × Field)}
    {k : String} :
    hasField ((n, f) :: rest) k = ((aliasOf n f == k) || hasField rest k) := rfl

theorem umFields_data_keys {reg : Registry} {flds : List (String × Field)}
    {ex : Exempt} {input : List (String × Prim)} {k : String} {nv : Native}
    (h : (k, nv) ∈ (umFields reg flds ex input).1) :
    hasField flds k = true := by
  induction flds with
  | nil => rw [umFields] at h; simp at h
  | cons hd rest ih =>
    obtain ⟨n0, f0⟩ := hd
    rw [umFields] at h
    rw [hasField_cons, Bool.or_eq_true, beq_iff_eq]
    split at h
    all_goals repeat' split at h
    all_goals try simp only at h
    all_goals try (exact Or.inr (ih h))
    all_goals rcases List.mem_cons.mp h with heq | htl
    all_goals try (exact Or.inr (ih htl))
    all_goals injection heq with h1 h2
    all_goals exact Or.inl h1.symm

theorem umFields_skip {reg : Registry} {flds : List (String × Field)}
    {ex : Exempt} {k : String} {p : Prim} {input : List (String × Prim)}
    (hk : hasField flds k = false) :
    umFields reg flds ex ((k, p) :: input) = umFields reg flds ex input := by
  induction flds with
  | nil =>
    conv_lhs => rw [umFields]
    conv_rhs => rw [umFields]
  | cons hd rest ih =>
    obtain ⟨n0, f0⟩ := hd
    rw [hasField_cons, Bool.or_eq_false_iff] at hk
    obtain ⟨hk1, hk2⟩ := hk
    have hne : (k == aliasOf n0 f0) = false := by
      simp only [beq_eq_false_iff_ne] at hk1 ⊢
      exact fun h => hk1 h.symm
    have hfe := findEntry_cons_ne input p hne
    conv_lhs => rw [umFields]
    conv_rhs => rw [umFields]
    rw [hfe, ih hk2]

theorem dserList_err_mem {reg : Registry} {f : Field} {xs : List Prim}
    {j : Nat} {x : Prim} (i : Nat)
    (hj : xs.get? j = some x)
    (hne : ErrTree.isEmpty (dserField reg f x).2 = false) :
    (i + j, (dserField reg f x).2) ∈ (dserList reg f xs i).2 := by
  induction xs generalizing i j with
  | nil => simp at hj
  | cons hd rest ih =>
    cases j with
    | zero =>
      simp only [List.get?_cons_zero, Option.some.injEq] at hj
      subst hj
      rw [dserList]
      simp [hne]
    | succ j =>
      simp only [List.get?_cons_succ] at hj
      have hmem := ih (i + 1) hj
      have harith : i + (j + 1) = (i + 1) + j := by omega
      rw [dserList, harith]
      dsimp only
      split
      · exact hmem
      · exact List.mem_cons_of_mem _ hmem

theorem mFields_data_mem {reg : Registry} {flds : List (String × Field)}
    {obj : List (String × Native)} {name : String} {f : Field} {v : Native}
    {p : Prim}
    (hmem : (name, f) ∈ flds)
    (hfind : findEntry obj (aliasOf name f) = some v)
    (hser : (serField reg f v).1 = some p) :
    (name, p) ∈ (mFields reg flds obj).1 := by
  induction flds with
  | nil => simp at hmem
  | cons hd rest ih =>
    obtain ⟨n0, f0⟩ := hd
    rcases List.mem_cons.mp hmem with heq | htl
    · injection heq with h1 h2
      subst h1
      subst h2
      rw [mFields]
      split
      · simp_all
      · simp_all
    · have hmemr := ih htl
      rw [mFields]
      split
      all_goals repeat' split
      all_goals simp_all

theorem mFields_err_mem {reg : Registry} {flds : List (String × Field)}
    {obj : List (String × Native)} {name : String} {f : Field} {v : Native}
    (hmem : (name, f) ∈ flds)
    (hfind : findEntry obj (aliasOf name f) = some v)
    (hne : ErrTree.isEmpty (serField reg f v).2 = false) :
    (name, (serField reg f v).2) ∈ (mFields reg flds obj).2 := by
  induction flds with
  | nil => simp at hmem
  | cons hd rest ih =>
    obtain ⟨n0, f0⟩ := hd
    rcases List.mem_cons.mp hmem with heq | htl
    · injection heq with h1 h2
      subst h1
      subst h2
      rw [mFields]
      split
      · simp_all
      · simp_all
    · have hmemr := ih htl
      rw [mFields]
      split
      all_goals repeat' split
      all_goals simp_all

theorem mMany_data (reg : Registry) (s : Schema) (xex : List String)
    (objs : List (List (String × Native))) (i : Nat) :
    (mMany reg s xex objs i).1 = objs.map fun o => (dumpRaw reg s xex o).1 := by
  induction objs generalizing i with
  | nil => simp [mMany]
  | cons o rest ih => simp [mMany, ih]

theorem mMany_errs (reg : Registry) (s : Schema) (xex : List String)
    (objs : List (List (String × Native))) (i : Nat) :
    (mMany reg s xex objs i).2 = (objs.enumFrom i).filterMap fun po =>
      if ErrTree.isEmpty (dumpRaw reg s xex po.2).2 then none
      else some (po.1, (dumpRaw reg s xex po.2).2) := by
  induction objs generalizing i with
  | nil => simp [mMany]
  | cons o rest ih =>
    rw [mMany]
    simp only [List.enumFrom_cons, List.filterMap_cons]
    split
    · simp_all [ih]
    · simp_all [ih]

theorem mFields_skip {reg : Registry} {flds : List (String × Field)}
    {k : String} {nv : Native} {obj : List (String × Native)}
    (hk : hasField flds k = false) :
    mFields reg flds ((k, nv) :: obj) = mFields reg flds obj := by
  induction flds with
  | nil =>
    conv_lhs => rw [mFields]
    conv_rhs => rw [mFields]
  | cons hd rest ih =>
    obtain ⟨n0, f0⟩ := hd
    rw [hasField_cons, Bool.or_eq_false_iff] at hk
    obtain ⟨hk1, hk2⟩ := hk
    have hne : (k == aliasOf n0 f0) = false := by
      simp only [beq_eq_false_iff_ne] at hk1 ⊢
      exact fun h => hk1 h.symm
    have hfe := findEntry_cons_ne obj nv hne
    conv_lhs => rw [mFields]
    conv_rhs => rw [mFields]
    rw [hfe, ih hk2]

theorem hasField_of_mem {flds : List (String × Field)} {n : String}
    {f : Field} (hmem : (n, f) ∈ flds) (ha : aliasOf n f = n) :
    hasField flds n = true := by
  rw [hasField, List.any_eq_true]
  exact ⟨(n, f), hmem, by simp [ha]⟩

theorem wtObj_alias {reg : Registry} {flds : List (String × Field)}
    {obj : List (String × Native)} (h : wtObj reg flds obj = true) :
    ∀ nf ∈ flds, aliasOf nf.1 nf.2 = nf.1 := by
  induction flds generalizing obj with
  | nil => intro nf hnf; simp at hnf
  | cons hd rest ih =>
    obtain ⟨n0, f0⟩ := hd
    cases obj with
    | nil => rw [wtObj] at h; simp at h
    | cons o orest =>
      obtain ⟨k, v⟩ := o
      rw [wtObj] at h
      simp only [Bool.and_eq_true, beq_iff_eq, Bool.not_eq_true'] at h
      obtain ⟨⟨⟨⟨ha, hk⟩, hnf⟩, hv⟩, ho⟩ := h
      intro nf hnf2
      rcases List.mem_cons.mp hnf2 with heq | htl
      · subst heq; simpa using ha
      · exact ih ho nf htl

theorem filter_unknown_nil {flds : List (String × Field)}
    {data : List (String × Prim)}
    (hkeys : data.map Prod.fst = flds.map Prod.fst)
    (halias : ∀ nf ∈ flds, aliasOf nf.1 nf.2 = nf.1) :
    data.filter (fun kv => !hasField flds kv.1) = [] := by
  apply List.filter_eq_nil_iff.mpr
  intro kv hkv
  have hk : kv.1 ∈ flds.map Prod.fst := by
    rw [← hkeys]
    exact List.mem_map_of_mem _ hkv
  obtain ⟨nf, hnf, hfst⟩ := List.mem_map.mp hk
  have hmem : (nf.1, nf.2) ∈ flds := by simpa using hnf
  have hhf := hasField_of_mem hmem (halias nf hnf)
  simp [← hfst, hhf]

theorem roundAux : ∀ n : Nat,
    (∀ (reg : Registry) (f : Field) (v : Native), sizeOf v ≤ n →
      wtValue reg f v = true →
      ∃ p, serField reg f v = (some p, emptyErr) ∧
        dserField reg f p = (some v, emptyErr)) ∧
    (∀ (reg : Registry) (f : Field) (xs : List Native), sizeOf xs ≤ n →
      wtList reg f xs = true →
      ∃ ps, (∀ i, serList reg f xs i = (ps, [])) ∧
        (∀ j, dserList reg f ps j = (xs, []))) ∧
    (∀ (reg : Registry) (flds : List (String × Field))
      (obj : List (String × Native)), sizeOf obj ≤ n →
      wtObj reg flds obj = true →
      ∃ data, mFields reg flds obj = (data, []) ∧
        data.map Prod.fst = flds.map Prod.fst ∧
        umFields reg flds .noneEx data = (obj, [])) := by
  intro n
  induction n using Nat.strong_induction_on with
  | _ n ih =>
  refine ⟨?_, ?_, ?_⟩
  · intro reg f v hn h
    obtain ⟨a, t, rq, an, df, ms, vs⟩ := f
    rw [wtValue.eq_def] at h
    cases t <;> cases v <;>
      simp [Field.ftype, Field.validators, Field.allowNone] at h
    · next s =>
      refine ⟨.str s, ?_, ?_⟩
      · rw [serField.eq_def]; simp [Field.ftype]
      · rw [dserField.eq_def]; simp [Field.ftype, vdone, Field.validators, h]
    · refine ⟨.nullv, ?_, ?_⟩
      · rw [serField.eq_def]; simp [Field.ftype, nullDump, Field.allowNone, h]
      · rw [dserField.eq_def]; simp [Field.ftype, nullLoad, Field.allowNone, h]
    · next nn =>
      refine ⟨.num nn, ?_, ?_⟩
      · rw [serField.eq_def]; simp [Field.ftype]
      · rw [dserField.eq_def]; simp [Field.ftype, vdone, Field.validators, h]
    · refine ⟨.nullv, ?_, ?_⟩
      · rw [serField.eq_def]; simp [Field.ftype, nullDump, Field.allowNone, h]
      · rw [dserField.eq_def]; simp [Field.ftype, nullLoad, Field.allowNone, h]
    · next b =>
      refine ⟨.boolean b, ?_, ?_⟩
      · rw [serField.eq_def]; simp [Field.ftype]
      · rw [dserField.eq_def]; simp [Field.ftype, vdone, Field.validators, h]
    · refine ⟨.nullv, ?_, ?_⟩
      · rw [serField.eq_def]; simp [Field.ftype, nullDump, Field.allowNone, h]
      · rw [dserField.eq_def]; simp [Field.ftype, nullLoad, Field.allowNone, h]
    · next d =>
      refine ⟨.str (fmtDate d), ?_, ?_⟩
      · rw [serField.eq_def]; simp [Field.ftype]
      · rw [dserField.eq_def]
        simp [Field.ftype, parseDate_fmtDate, vdone, Field.validators, h]
    · refine ⟨.nullv, ?_, ?_⟩
      · rw [serField.eq_def]; simp [Field.ftype, nullDump, Field.allowNone, h]
      · rw [dserField.eq_def]; simp [Field.ftype, nullLoad, Field.allowNone, h]
    · refine ⟨.nullv, ?_, ?_⟩
      · rw [serField.eq_def]; simp [Field.ftype, nullDump, Field.allowNone, h]
      · rw [dserField.eq_def]; simp [Field.ftype, nullLoad, Field.allowNone, h]
    · next sn entries =>
      obtain ⟨h1, h2⟩ := h
      cases hfs : findSchema reg sn with
      | none => rw [hfs] at h1; simp at h1
      | some child =>
        rw [hfs] at h1
        simp at h1
        have hlt : sizeOf entries < n := by simp at hn; omega
        obtain ⟨data, hm, hkeys, hu⟩ :=
          (ih (sizeOf entries) hlt).2.2 reg (effFields child []) entries
            (le_refl _) h1
        have halias := wtObj_alias h1
        have hunk := filter_unknown_nil hkeys halias
        have hload : loadRaw reg child [] .noneEx data = (entries, .tree []) := by
          rw [loadRaw.eq_def]
          split
          · simp [hu]
          · simp [hu, hunk]
          · simp [hu, hunk]
        refine ⟨.map data, ?_, ?_⟩
        · rw [serField.eq_def]
          simp [Field.ftype, hfs, dumpRaw, hm, emptyErr]
        · rw [dserField.eq_def]
          simp [Field.ftype, hfs, hload, ErrTree.isEmpty, vdone,
            Field.validators, h2, emptyErr]
    · refine ⟨.nullv, ?_, ?_⟩
      · rw [serField.eq_def]; simp [Field.ftype, nullDump, Field.allowNone, h]
      · rw [dserField.eq_def]; simp [Field.ftype, nullLoad, Field.allowNone, h]
    · next inner xs =>
      obtain ⟨h1, h2⟩ := h
      have hlt : sizeOf xs < n := by simp at hn; omega
      obtain ⟨ps, hs, hd⟩ :=
        (ih (sizeOf xs) hlt).2.1 reg inner xs (le_refl _) h1
      refine ⟨.list ps, ?_, ?_⟩
      · rw [serField.eq_def]
        simp [Field.ftype, hs 0, emptyErr]
      · rw [dserField.eq_def]
        simp [Field.ftype, hd 0, vdone, Field.validators, h2, emptyErr]
  · intro reg f xs hn h
    cases xs with
    | nil =>
      refine ⟨[], ?_, ?_⟩
      · intro i; rw [serList]
      · intro j; rw [dserList]
    | cons x rest =>
      rw [wtList] at h
      simp only [Bool.and_eq_true] at h
      obtain ⟨h1, h2⟩ := h
      have hlt1 : sizeOf x < n := by simp at hn; omega
      have hlt2 : sizeOf rest < n := by simp at hn; omega
      obtain ⟨p, hs1, hd1⟩ := (ih (sizeOf x) hlt1).1 reg f x (le_refl _) h1
      obtain ⟨ps, hs2, hd2⟩ :=
        (ih (sizeOf rest) hlt2).2.1 reg f rest (le_refl _) h2
      refine ⟨p :: ps, ?_, ?_⟩
      · intro i
        rw [serList]
        simp [hs1, hs2 (i + 1), emptyErr, ErrTree.isEmpty]
      · intro j
        rw [dserList]
        simp [hd1, hd2 (j + 1), emptyErr, ErrTree.isEmpty]
  · intro reg flds obj hn h
    cases flds with
    | nil =>
      cases obj with
      | nil =>
        refine ⟨[], ?_, by simp, ?_⟩
        · rw [mFields]
        · rw [umFields]
      | cons o orest => rw [wtObj] at h; simp at h
    | cons hd fr =>
      obtain ⟨name, f⟩ := hd
      cases obj with
      | nil => rw [wtObj] at h; simp at h
      | cons o orest =>
        obtain ⟨k, v⟩ := o
        rw [wtObj] at h
        simp only [Bool.and_eq_true, beq_iff_eq, Bool.not_eq_true'] at h
        obtain ⟨⟨⟨⟨ha, hk⟩, hnf⟩, hv⟩, ho⟩ := h
        have hk2 : name = k := hk.symm
        subst hk2
        have hlt1 : sizeOf v < n := by simp at hn; omega
        have hlt2 : sizeOf orest < n := by simp at hn; omega
        obtain ⟨p, hs, hd2⟩ := (ih (sizeOf v) hlt1).1 reg f v (le_refl _) hv
        obtain ⟨data, hm, hkeys, hu⟩ :=
          (ih (sizeOf orest) hlt2).2.2 reg fr orest (le_refl _) ho
        refine ⟨(name, p) :: data, ?_, ?_, ?_⟩
        · rw [mFields]
          have hfe : findEntry ((name, v) :: orest) (aliasOf name f) = some v := by
            simp [findEntry, ha]
          rw [hfe]
          simp [hs, hm, mFields_skip hnf, emptyErr, ErrTree.isEmpty]
        · simp [hkeys]
        · rw [umFields]
          have hfe2 : findEntry ((name, p) :: data) (aliasOf name f) = some p := by
            simp [findEntry, ha]
          rw [hfe2]
          simp [hd2, hu, ha, umFields_skip hnf, emptyErr, ErrTree.isEmpty]

theorem roundObj {reg : Registry} {flds : List (String × Field)}
    {obj : List (String × Native)} (h : wtObj reg flds obj = true) :
    ∃ data, mFields reg flds obj = (data, []) ∧
      data.map Prod.fst = flds.map Prod.fst ∧
      umFields reg flds .noneEx data = (obj, []) :=
  (roundAux (sizeOf obj)).2.2 reg flds obj (le_refl _) h

/-- C10: importing the package binds exactly the eight public names listed
in `__all__` — Schema, Serializer, SchemaOpts, pprint, MarshalResult,
UnmarshalResult, MarshallingError, UnmarshallingError — pairwise distinct,
including the Serializer alias, the two direction-specific result types and
the pprint utility. -/
theorem c10_exports :
    dunderAll = ["Schema", "Serializer", "SchemaOpts", "pprint",
      "MarshalResult", "UnmarshalResult", "MarshallingError",
      "UnmarshallingError"] ∧
    dunderAll.length = 8 ∧ dunderAll.Nodup ∧
    "Serializer" ∈ dunderAll ∧ "pprint" ∈ dunderAll ∧
    "MarshalResult" ∈ dunderAll ∧ "UnmarshalResult" ∈ dunderAll := by
  refine ⟨rfl, rfl, ?_, ?_, ?_, ?_, ?_⟩ <;> decide

/-- C9: no call mutates the schema: running any sequence of dump/load calls
(each with its call-scoped overrides) leaves the schema state unchanged,
and every call's result is computed from the original schema alone — so
repeated calls with the same inputs are independent, with no cross-call
state leakage. -/
theorem c9_no_mutation (reg : Registry) (s : Schema) (cs : List Call) :
    (runCalls reg s cs).2 = s ∧
    (runCalls reg s cs).1 = cs.map fun c => (runCall reg s c).1 := by
  induction cs with
  | nil => exact ⟨rfl, rfl⟩
  | cons c rest ih =>
    have hshape : (runCall reg s c).2 = s := by cases c <;> rfl
    constructor
    · simp only [runCalls, hshape]
      exact ih.1
    · simp only [runCalls, hshape, List.map_cons]
      rw [ih.2]

/-- C8: dump and load are total — they terminate on every finite input for
every registry, including registries in which a schema refers to itself
(the recursion is well-founded on the size of the input data, not on the
schema graph); concretely, loading depth-two data against the
self-referential `nodeSchema` terminates with the expected result. -/
theorem c8_termination :
    (∀ (reg : Registry) (s : Schema) (ex : Exempt)
      (input : List (String × Prim)), ∃ r, Schema.load reg s ex input = r) ∧
    (∀ (reg : Registry) (s : Schema) (obj : List (String × Native)),
      ∃ r, Schema.dump reg s obj = r) ∧
    loadRaw nodeReg nodeSchema [] .noneEx
      [("v", .num 1), ("next", .map [("v", .num 2)])] =
      ([("v", .num 1), ("next", .obj [("v", .num 2)])], .tree []) := by
  refine ⟨fun reg s ex input => ⟨_, rfl⟩, fun reg s obj => ⟨_, rfl⟩, ?_⟩
  simp [loadRaw, umFields, dserField, vdone, runValidators, effFields,
    hasField, aliasOf, findEntry, findSchema, Field.ftype, Field.validators,
    emptyErr, ErrTree.isEmpty, inExempt, Field.missing, Field.required,
    Field.attr, nodeSchema, numReqF, nodeReg]

/-- C2: with strict mode on, load raises an UnmarshallingError (and dump /
dump-many symmetrically a MarshallingError) exactly when the accumulated
error tree is non-empty, and the raised error carries the full error tree
and the partially-built data; with strict mode off no failure is ever
raised — every failure is reported through the returned Result. -/
theorem c2_strict_raise (reg : Registry) (s : Schema) (ex : Exempt)
    (input : List (String × Prim)) (obj : List (String × Native))
    (objs : List (List (String × Native))) :
    (∀ e, Schema.load reg s ex input = .error e ↔
      (s.opts.strict = true ∧
       ErrTree.isEmpty (loadRaw reg s [] ex input).2 = false ∧
       e = ⟨(loadRaw reg s [] ex input).2, .obj (loadRaw reg s [] ex input).1⟩)) ∧
    (s.opts.strict = false →
      Schema.load reg s ex input =
        .ok ⟨.obj (loadRaw reg s [] ex input).1, (loadRaw reg s [] ex input).2⟩) ∧
    (∀ e, Schema.dump reg s obj = .error e ↔
      (s.opts.strict = true ∧
       ErrTree.isEmpty (dumpRaw reg s [] obj).2 = false ∧
       e = ⟨(dumpRaw reg s [] obj).2, .map (dumpRaw reg s [] obj).1⟩)) ∧
    (s.opts.strict = false →
      Schema.dump reg s obj =
        .ok ⟨.map (dumpRaw reg s [] obj).1, (dumpRaw reg s [] obj).2⟩) ∧
    (∀ e, Schema.dumpMany reg s objs = .error e ↔
      (s.opts.strict = true ∧
       ErrTree.isEmpty (ErrTree.indexed (mMany reg s [] objs 0).2) = false ∧
       e = ⟨.indexed (mMany reg s [] objs 0).2,
            .list ((mMany reg s [] objs 0).1.map Prim.map)⟩)) := by
  refine ⟨?_, ?_, ?_, ?_, ?_⟩
  · intro e
    simp only [Schema.load]
    split
    · next hc =>
      simp only [Bool.and_eq_true, Bool.not_eq_true'] at hc
      simp [hc.1, hc.2, eq_comm]
    · next hc =>
      simp only [Bool.and_eq_true, Bool.not_eq_true', not_and,
        Bool.not_eq_false] at hc
      constructor
      · intro hcontra
        exact absurd hcontra (by simp)
      · rintro ⟨h1, h2, -⟩
        rw [hc h1] at h2
        cases h2
  · intro hstr
    simp only [Schema.load, hstr]
    simp
  · intro e
    simp only [Schema.dump]
    split
    · next hc =>
      simp only [Bool.and_eq_true, Bool.not_eq_true'] at hc
      simp [hc.1, hc.2, eq_comm]
    · next hc =>
      simp only [Bool.and_eq_true, Bool.not_eq_true', not_and,
        Bool.not_eq_false] at hc
      constructor
      · intro hcontra
        exact absurd hcontra (by simp)
      · rintro ⟨h1, h2, -⟩
        rw [hc h1] at h2
        cases h2
  · intro hstr
    simp only [Schema.dump, hstr]
    simp
  · intro e
    simp only [Schema.dumpMany]
    split
    · next hc =>
      simp only [Bool.and_eq_true, Bool.not_eq_true'] at hc
      simp [hc.1, hc.2, eq_comm]
    · next hc =>
      simp only [Bool.and_eq_true, Bool.not_eq_true', not_and,
        Bool.not_eq_false] at hc
      constructor
      · intro hcontra
        exact absurd hcontra (by simp)
      · rintro ⟨h1, h2, -⟩
        rw [hc h1] at h2
        cases h2

/-- C2 witness: on the concrete one-required-field schema with empty input,
the strict variant raises the error carrying the full error tree and the
partial data, while the non-strict variant returns a Result carrying the
same error tree. -/
theorem c2_strict_raise_witness :
    Schema.load [] strictS .noneEx [] =
      .error ⟨.tree [("x", .msgs ["required"])], .obj []⟩ ∧
    Schema.load [] laxS .noneEx [] =
      .ok ⟨.obj [], .tree [("x", .msgs ["required"])]⟩ := by
  have hlr : loadRaw [] strictS [] .noneEx [] =
      ([], .tree [("x", ErrTree.msgs ["required"])]) := by
    simp [loadRaw, umFields, effFields, hasField, aliasOf, findEntry,
      Field.ftype, emptyErr, ErrTree.isEmpty, inExempt, Field.missing,
      Field.required, Field.attr, strictS, numReqF]
  have hlr2 : loadRaw [] laxS [] .noneEx [] =
      ([], .tree [("x", ErrTree.msgs ["required"])]) := by
    simp [loadRaw, umFields, effFields, hasField, aliasOf, findEntry,
      Field.ftype, emptyErr, ErrTree.isEmpty, inExempt, Field.missing,
      Field.required, Field.attr, laxS, numReqF]
  constructor
  · refine ((c2_strict_raise [] strictS .noneEx [] [] []).1 _).mpr ?_
    refine ⟨rfl, ?_, ?_⟩
    · rw [hlr]; rfl
    · rw [hlr]
  · have := (c2_strict_raise [] laxS .noneEx [] [] []).2.1 rfl
    rw [hlr2] at this
    exact this

/-- An error tree with a witnessed entry is non-empty. -/
theorem entries_nonempty_isEmpty_false {l : List (String × ErrTree)}
    {x : String × ErrTree} (h : x ∈ l) :
    ErrTree.isEmpty (ErrTree.tree l) = false := by
  cases l with
  | nil => simp at h
  | cons a rest => rfl

/-- C3: loading a mapping lacking a required field with no `missing`
default: if the field is not exempted by the partial set, the error tree is
non-empty and keyed by the field's name, and in non-strict mode nothing is
raised; if the field is in the partial set, its processing is skipped
entirely (no error entry, no output entry), and on the spec's concrete
example the load succeeds with empty errors and `age` absent from the
output. -/
theorem c3_required_enforcement (reg : Registry) (s : Schema) (ex : Exempt)
    (input : List (String × Prim)) (name : String) (f : Field)
    (hmem : (name, f) ∈ effFields s [])
    (habs : findEntry input (aliasOf name f) = none)
    (hms : Field.missing f = none)
    (hreq : Field.required f = true) :
    (inExempt ex name = false →
      ((name, ErrTree.msgs ["required"]) ∈
        ErrTree.entries (loadRaw reg s [] ex input).2 ∧
       ErrTree.isEmpty (loadRaw reg s [] ex input).2 = false ∧
       (s.opts.strict = false → ∃ r, Schema.load reg s ex input = .ok r))) ∧
    (∀ (reg2 : Registry) (rest : List (String × Field)) (ex2 : Exempt)
       (input2 : List (String × Prim)),
      inExempt ex2 name = true →
      findEntry input2 (aliasOf name f) = none →
      umFields reg2 ((name, f) :: rest) ex2 input2 =
        umFields reg2 rest ex2 input2) ∧
    loadRaw [] partialS [] (.names ["age"]) [("name", .str "a")] =
      ([("name", .str "a")], .tree []) := by
  refine ⟨?_, ?_, ?_⟩
  · intro hex
    have hm := umFields_required_mem reg input hmem habs hex hms hreq
    have hsplit : ∃ l, (loadRaw reg s [] ex input).2 = .tree l ∧
        (name, ErrTree.msgs ["required"]) ∈ l := by
      rw [loadRaw.eq_def]
      split
      · exact ⟨_, rfl, hm⟩
      · exact ⟨_, rfl, List.mem_append_left _ hm⟩
      · exact ⟨_, rfl, hm⟩
    obtain ⟨l, hl, hlm⟩ := hsplit
    refine ⟨?_, ?_, ?_⟩
    · rw [hl]
      exact hlm
    · rw [hl]
      exact entries_nonempty_isEmpty_false hlm
    · intro hstr
      simp [Schema.load, hstr]
  · intro reg2 rest ex2 input2 hex2 habs2
    conv_lhs => rw [umFields]
    rw [habs2]
    simp [hex2]
  · simp [loadRaw, umFields, effFields, hasField, aliasOf, findEntry,
      dserField, vdone, runValidators, Field.ftype, Field.validators,
      emptyErr, ErrTree.isEmpty, inExempt, Field.missing, Field.required,
      Field.attr, partialS, strReqF, numReqF]

/-- C3 witness: against the `name`/`age` schema and input `{"name":"a"}`,
the missing required `age` yields a "required" error keyed by `age` when
not exempted, and succeeds with empty errors and no `age` output when
`partial={"age"}`. -/
theorem c3_required_enforcement_witness :
    ("age", ErrTree.msgs ["required"]) ∈
      ErrTree.entries (loadRaw [] partialS [] .noneEx [("name", .str "a")]).2 ∧
    loadRaw [] partialS [] (.names ["age"]) [("name", .str "a")] =
      ([("name", .str "a")], .tree []) := by
  have h := c3_required_enforcement [] partialS .noneEx [("name", .str "a")]
    "age" numReqF
    (by simp [effFields, partialS])
    (by simp [findEntry, aliasOf, Field.attr, numReqF])
    rfl rfl
  exact ⟨(h.1 rfl).1, h.2.2⟩

/-- C4: an input key with no matching field is handled by the unknown-field
policy: under `ignore` it is dropped from the output, under `raise` it
contributes a top-level unknown-field error, under `include` it passes
through untouched into the output; on the spec's concrete example, loading
`{"x":1, "extra":2}` yields `{"x":1}` with empty errors (ignore), a
top-level error keyed `extra` (raise), or `{"x":1, "extra":2}` (include). -/
theorem c4_unknown_policy (reg : Registry) (flds : List (String × Field))
    (ex : Exempt) (input : List (String × Prim)) (k : String) (v : Prim)
    (hin : (k, v) ∈ input) (hunk : hasField flds k = false) :
    (findEntry (loadRaw reg { fields := flds, opts := { unknown := .ignore } }
        [] ex input).1 k = none) ∧
    ((k, ErrTree.msgs ["unknown field"]) ∈ ErrTree.entries
      (loadRaw reg { fields := flds, opts := { unknown := .raiseErr } }
        [] ex input).2) ∧
    ((k, primToNative v) ∈
      (loadRaw reg { fields := flds, opts := { unknown := .includeKeys } }
        [] ex input).1) ∧
    (loadRaw [] (unkS .ignore) [] .noneEx [("x", .num 1), ("extra", .num 2)] =
      ([("x", .num 1)], .tree [])) ∧
    (loadRaw [] (unkS .raiseErr) [] .noneEx [("x", .num 1), ("extra", .num 2)] =
      ([("x", .num 1)], .tree [("extra", .msgs ["unknown field"])])) ∧
    (loadRaw [] (unkS .includeKeys) [] .noneEx
        [("x", .num 1), ("extra", .num 2)] =
      ([("x", .num 1), ("extra", .num 2)], .tree [])) := by
  have heff : ∀ pol : UnknownPolicy,
      effFields { fields := flds, opts := { unknown := pol } } [] = flds := by
    intro pol
    simp [effFields]
  refine ⟨?_, ?_, ?_, ?_, ?_, ?_⟩
  · rw [loadRaw.eq_def]
    simp only [heff]
    apply findEntry_eq_none
    intro v' hv'
    exact absurd (umFields_data_keys hv') (by simp [hunk])
  · rw [loadRaw.eq_def]
    simp only [heff, ErrTree.entries]
    apply List.mem_append_right
    refine List.mem_map.mpr ⟨(k, v), List.mem_filter.mpr ⟨hin, ?_⟩, rfl⟩
    simp [hunk]
  · rw [loadRaw.eq_def]
    simp only [heff]
    apply List.mem_append_right
    exact List.mem_map.mpr ⟨(k, v), List.mem_filter.mpr ⟨hin, by simp [hunk]⟩, rfl⟩
  · simp [loadRaw, umFields, effFields, hasField, aliasOf, findEntry,
      dserField, vdone, runValidators, Field.ftype, Field.validators,
      emptyErr, ErrTree.isEmpty, inExempt, Field.attr, unkS, numReqF]
  · simp [loadRaw, umFields, effFields, hasField, aliasOf, findEntry,
      dserField, vdone, runValidators, Field.ftype, Field.validators,
      emptyErr, ErrTree.isEmpty, inExempt, Field.attr, unkS, numReqF]
  · simp [loadRaw, umFields, effFields, hasField, aliasOf, findEntry,
      dserField, vdone, runValidators, Field.ftype, Field.validators,
      emptyErr, ErrTree.isEmpty, inExempt, Field.attr, unkS, numReqF,
      primToNative]

/-- C4 witness: the general policy statements instantiated at the spec's
example — schema with only field `x`, input `{"x":1, "extra":2}`, unknown
key `extra`. -/
theorem c4_unknown_policy_witness :
    (findEntry (loadRaw [] (unkS .ignore)
        [] .noneEx [("x", .num 1), ("extra", .num 2)]).1 "extra" = none) ∧
    (("extra", ErrTree.msgs ["unknown field"]) ∈ ErrTree.entries
      (loadRaw [] (unkS .raiseErr)
        [] .noneEx [("x", .num 1), ("extra", .num 2)]).2) ∧
    (("extra", primToNative (.num 2)) ∈
      (loadRaw [] (unkS .includeKeys)
        [] .noneEx [("x", .num 1), ("extra", .num 2)]).1) := by
  have h := c4_unknown_policy [] [("x", numReqF)] .noneEx
    [("x", .num 1), ("extra", .num 2)] "extra" (.num 2)
    (by simp)
    (by simp [hasField, aliasOf, Field.attr, numReqF])
  exact ⟨h.1, h.2.1, h.2.2.1⟩

/-- C5: dump with many=True produces, as data, the ordered sequence of the
per-element dump results, and its error tree has an entry exactly at the
indices of the failing elements; within one element, a per-field serialize
failure is recorded only under that field's name and never prevents a
sibling field's output from being produced. -/
theorem c5_many_semantics (reg : Registry) (s : Schema)
    (objs : List (List (String × Native))) (i : Nat) :
    ((mMany reg s [] objs i).1 = objs.map fun o => (dumpRaw reg s [] o).1) ∧
    ((mMany reg s [] objs i).2 = (objs.enumFrom i).filterMap fun po =>
      if ErrTree.isEmpty (dumpRaw reg s [] po.2).2 then none
      else some (po.1, (dumpRaw reg s [] po.2).2)) ∧
    (∀ (flds : List (String × Field)) (obj : List (String × Native))
       (name : String) (f : Field) (v : Native) (p : Prim),
      (name, f) ∈ flds →
      findEntry obj (aliasOf name f) = some v →
      (serField reg f v).1 = some p →
      (name, p) ∈ (mFields reg flds obj).1) ∧
    (∀ (flds : List (String × Field)) (obj : List (String × Native))
       (name : String) (f : Field) (v : Native),
      (name, f) ∈ flds →
      findEntry obj (aliasOf name f) = some v →
      ErrTree.isEmpty (serField reg f v).2 = false →
      (name, (serField reg f v).2) ∈ (mFields reg flds obj).2) :=
  ⟨mMany_data reg s [] objs i, mMany_errs reg s [] objs i,
    fun _ _ _ _ _ _ h1 h2 h3 => mFields_data_mem h1 h2 h3,
    fun _ _ _ _ _ h1 h2 h3 => mFields_err_mem h1 h2 h3⟩

/-- C5 witness: dumping `[{"x":1}, {"x":"bad"}]` against the number-field
schema — the failing second element only contributes the index-1 error
entry while element 0's data is intact, and within an object the found
field's output/ error membership facts hold at the concrete inputs. -/
theorem c5_many_semantics_witness :
    ((mMany [] laxS [] [[("x", .num 1)], [("x", .str "bad")]] 0).1 =
      [[("x", .num 1)], [("x", .str "bad")]].map
        fun o => (dumpRaw [] laxS [] o).1) ∧
    ("x", Prim.num 1) ∈ (mFields [] [("x", numReqF)] [("x", .num 1)]).1 ∧
    ("x", ErrTree.msgs ["invalid"]) ∈
      (mFields [] [("x", numReqF)] [("x", .str "bad")]).2 := by
  refine ⟨(c5_many_semantics [] laxS [[("x", .num 1)], [("x", .str "bad")]] 0).1,
    ?_, ?_⟩
  · exact (c5_many_semantics [] laxS [] 0).2.2.1 [("x", numReqF)]
      [("x", .num 1)] "x" numReqF (.num 1) (.num 1)
      (by simp) (by simp [findEntry, aliasOf, Field.attr, numReqF])
      (by simp [serField, Field.ftype, numReqF])
  · have hmem := (c5_many_semantics [] laxS [] 0).2.2.2 [("x", numReqF)]
      [("x", .str "bad")] "x" numReqF (.str "bad")
      (by simp) (by simp [findEntry, aliasOf, Field.attr, numReqF])
      (by simp [serField, Field.ftype, numReqF, ErrTree.isEmpty])
    have hse : (serField [] numReqF (.str "bad")).2 = ErrTree.msgs ["invalid"] := by
      simp [serField, Field.ftype, numReqF]
    rw [hse] at hmem
    exact hmem

/-- C6: a nested field's child errors are spliced into the parent error
tree under the parent field's name, and a list field's element errors are
keyed by the element's numeric index; loading `{"address":{}}` against the
address schema yields errors `{"address": {"zip": ["required"]}}`. -/
theorem c6_nested_error_path (reg : Registry) (s : Schema) (ex : Exempt)
    (input : List (String × Prim)) (name : String) (f : Field) (sn : String)
    (child : Schema) (sub : List (String × Prim))
    (hmem : (name, f) ∈ effFields s [])
    (hft : Field.ftype f = .nested sn)
    (hfs : findSchema reg sn = some child)
    (hfind : findEntry input (aliasOf name f) = some (.map sub))
    (hne : ErrTree.isEmpty (loadRaw reg child [] .noneEx sub).2 = false) :
    ((name, (loadRaw reg child [] .noneEx sub).2) ∈
      ErrTree.entries (loadRaw reg s [] ex input).2) ∧
    (∀ (g : Field) (xs : List Prim) (j : Nat) (x : Prim) (i : Nat),
      xs.get? j = some x →
      ErrTree.isEmpty (dserField reg g x).2 = false →
      (i + j, (dserField reg g x).2) ∈ (dserList reg g xs i).2) ∧
    loadRaw addrReg addrS [] .noneEx [("address", .map [])] =
      ([("address", .obj [])],
       .tree [("address", .tree [("zip", .msgs ["required"])])]) := by
  refine ⟨?_, fun g xs j x i h1 h2 => dserList_err_mem i h1 h2, ?_⟩
  · have hds : dserField reg f (.map sub) =
        (some (.obj (loadRaw reg child [] .noneEx sub).1),
         (loadRaw reg child [] .noneEx sub).2) := by
      rw [dserField.eq_def, hft]
      simp [hfs, hne]
    have hmem2 := umFields_err_mem ex hmem hfind
      (by rw [hds]; exact hne)
    rw [hds] at hmem2
    rw [loadRaw.eq_def]
    split
    · simpa [ErrTree.entries] using hmem2
    · simp only [ErrTree.entries]
      exact List.mem_append_left _ hmem2
    · simpa [ErrTree.entries] using hmem2
  · simp [loadRaw, umFields, effFields, hasField, aliasOf, findEntry,
      findSchema, dserField, vdone, runValidators, Field.ftype,
      Field.validators, emptyErr, ErrTree.isEmpty, inExempt, Field.missing,
      Field.required, Field.attr, addrS, addrReg, zipS, strReqF]

/-- C6 witness: the nested-splice statement instantiated at the concrete
address/zip example. -/
theorem c6_nested_error_path_witness :
    ("address", (loadRaw addrReg zipS [] .noneEx []).2) ∈
      ErrTree.entries
        (loadRaw addrReg addrS [] .noneEx [("address", .map [])]).2 := by
  exact (c6_nested_error_path addrReg addrS .noneEx [("address", .map [])]
    "address" (Field.mk none (.nested "addr") true false none none [])
    "addr" zipS []
    (by simp [effFields, addrS])
    rfl
    (by simp [findSchema, findEntry, addrReg])
    (by simp [findEntry, aliasOf, Field.attr])
    (by simp [loadRaw, umFields, effFields, hasField, aliasOf, findEntry,
      Field.ftype, emptyErr, ErrTree.isEmpty, inExempt, Field.missing,
      Field.required, Field.attr, zipS, strReqF])).1

/-- C7: validators run in registration order and short-circuit at the first
failure: when every validator before `vd` accepts and `vd` rejects with
`msg`, the field's error carries only `msg`, and the validators after `vd`
are never consulted — replacing them by any other list yields the same
deserialization result. -/
theorem c7_validator_short_circuit (reg : Registry) (a : Option String)
    (rq an : Bool) (df : Option Prim) (ms : Option Native)
    (pre post post2 : List (Native → Option String))
    (vd : Native → Option String) (s msg : String)
    (hpre : ∀ u ∈ pre, u (.str s) = none) (hvd : vd (.str s) = some msg) :
    runValidators (pre ++ vd :: post) (.str s) = some msg ∧
    dserField reg (.mk a .str rq an df ms (pre ++ vd :: post)) (.str s)
      = (none, .msgs [msg]) ∧
    dserField reg (.mk a .str rq an df ms (pre ++ vd :: post)) (.str s)
      = dserField reg (.mk a .str rq an df ms (pre ++ vd :: post2)) (.str s) := by
  have hrv := runValidators_first_failure pre post vd hpre hvd
  have hrv2 := runValidators_first_failure pre post2 vd hpre hvd
  have hd1 : dserField reg (.mk a .str rq an df ms (pre ++ vd :: post)) (.str s)
      = (none, .msgs [msg]) := by
    rw [dserField.eq_def]
    simp [Field.ftype, vdone, Field.validators, hrv]
  have hd2 : dserField reg (.mk a .str rq an df ms (pre ++ vd :: post2)) (.str s)
      = (none, .msgs [msg]) := by
    rw [dserField.eq_def]
    simp [Field.ftype, vdone, Field.validators, hrv2]
  exact ⟨hrv, hd1, hd1.trans hd2.symm⟩

/-- C7 witness: with validators `[vOk, vBad, vLater]`, deserializing "a"
reports only `vBad`'s message, and dropping `vLater` leaves the result
unchanged. -/
theorem c7_validator_short_circuit_witness :
    runValidators ([vOk] ++ vBad :: [vLater]) (.str "a") = some "bad" ∧
    dserField [] (.mk none .str true false none none ([vOk] ++ vBad :: [vLater]))
      (.str "a") = (none, .msgs ["bad"]) ∧
    dserField [] (.mk none .str true false none none ([vOk] ++ vBad :: [vLater]))
      (.str "a") =
    dserField [] (.mk none .str true false none none ([vOk] ++ vBad :: []))
      (.str "a") := by
  exact c7_validator_short_circuit [] none true false none none
    [vOk] [vLater] [] vBad "a" "bad"
    (by intro u hu; simp at hu; subst hu; rfl) rfl

/-- C1: round-trip — for a native object whose entries are exactly the
schema's effective fields in registry order (no optional-field omissions)
with values surviving their declared coercions (numbers, strings, dates,
nested objects and lists, accepted by their validators), dumping and then
loading the dumped data returns the original object with empty errors, for
the raw engine and for the public wrappers in any strict mode. -/
theorem c1_round_trip (reg : Registry) (s : Schema)
    (obj : List (String × Native))
    (h : wtObj reg (effFields s []) obj = true) :
    ∃ data, dumpRaw reg s [] obj = (data, .tree []) ∧
      loadRaw reg s [] .noneEx data = (obj, .tree []) ∧
      Schema.dump reg s obj = .ok ⟨.map data, .tree []⟩ ∧
      Schema.load reg s .noneEx data = .ok ⟨.obj obj, .tree []⟩ := by
  obtain ⟨data, hm, hkeys, hu⟩ := roundObj h
  have halias := wtObj_alias h
  have hunk := filter_unknown_nil hkeys halias
  have hdump : dumpRaw reg s [] obj = (data, .tree []) := by
    rw [dumpRaw.eq_def]
    rw [hm]
  have hload : loadRaw reg s [] .noneEx data = (obj, .tree []) := by
    rw [loadRaw.eq_def]
    split
    · rw [hu]
    · rw [hu, hunk]
      simp
    · rw [hu, hunk]
      simp
  refine ⟨data, hdump, hload, ?_, ?_⟩
  · simp only [Schema.dump, hdump]
    simp [ErrTree.isEmpty]
  · simp only [Schema.load, hload]
    simp [ErrTree.isEmpty]

/-- C1 witness: the demo object is well-typed for the demo schema, and
dump-then-load round-trips it exactly, through the raw engine and the
public wrappers. -/
theorem c1_round_trip_witness :
    wtObj demoReg (effFields demoS []) demoObj = true ∧
    ∃ data, dumpRaw demoReg demoS [] demoObj = (data, .tree []) ∧
      loadRaw demoReg demoS [] .noneEx data = (demoObj, .tree []) ∧
      Schema.dump demoReg demoS demoObj = .ok ⟨.map data, .tree []⟩ ∧
      Schema.load demoReg demoS .noneEx data = .ok ⟨.obj demoObj, .tree []⟩ := by
  have h : wtObj demoReg (effFields demoS []) demoObj = true := by
    simp [wtObj, wtValue, wtList, effFields, demoS, demoObj, demoReg,
      demoChild, strReqF, numReqF, vNonEmpty, Field.ftype, Field.validators,
      Field.allowNone, aliasOf, Field.attr, hasField, runValidators,
      findSchema, findEntry]
  exact ⟨h, c1_round_trip demoReg demoS demoObj h⟩

end Marshmallow
